import Mathlib

/-!
Verification of the JuliaInterface bridge (src/JuliaInterface.c): a shallow
embedding of the anchor table (the Julia globals GAP_MEMORY_STORAGE and
GAP_MEMORY_STORAGE_INTS), the foreign handle layer (NewJuliaObj /
JuliaObjFreeFunc), and the value conversion engine (JuliaBox_internal /
JuliaUnbox_internal), together with theorems about them.

External primitives (GAP kernel macros such as INTOBJ_INT, NEW_MACFLOAT and
C_NEW_STRING, and the libjulia C API such as jl_box_int64 or Julia Base
pop!/push!/setindex!) are not part of this repository; they are modelled
from the spec's external-interface description: host native integers,
floats, strings and booleans are exact carriers of their mathematical
values (bit patterns for floats), and Julia arrays are 1-indexed growable
sequences where pop! removes the last element, push! appends one, and
setindex! writes in place.

Julia values and GAP values are mutual inductives with their own list
types (JlValueList, GapObjList) so that all definitions are structurally
recursive and compute by kernel reduction.
-/

set_option maxRecDepth 8000

namespace JuliaInterface

mutual

/-- A Julia runtime value (`jl_value_t*`), restricted to the shapes the
conversion engine distinguishes via `jl_typeis` / `jl_is_array`.
`nullref` is the C null pointer (returned by `JuliaBox_internal` on
failure, and storable into an any-typed array slot); `nothing` is the
Julia `nothing` singleton; `other` stands for every Julia value outside
the dispatched set (for example a `BigInt` or a `Symbol`). -/
inductive JlValue : Type where
  | int64 (v : Int)
  | int32 (v : Int)
  | int16 (v : Int)
  | int8 (v : Int)
  | uint64 (v : Nat)
  | uint32 (v : Nat)
  | uint16 (v : Nat)
  | uint8 (v : Nat)
  | float64 (bits : Nat)
  | float32 (bits : Nat)
  | string (s : String)
  | bool (b : Bool)
  | array (elems : JlValueList)
  | nothing
  | nullref
  | other
deriving DecidableEq

/-- The element sequence of a 1-dimensional Julia array, in index order. -/
inductive JlValueList : Type where
  | nil
  | cons (head : JlValue) (tail : JlValueList)
deriving DecidableEq

end

/-- A GAP bag of TNUM `T_JULIA_OBJ` as laid out by `NewJuliaObj`:
bag slot 0 holds the raw Julia value, bag slot 1 the anchor-table index
(kept there as a boxed Int64). -/
structure JuliaHandle : Type where
  value : JlValue
  index : Int
deriving DecidableEq

mutual

/-- A GAP host value (`Obj`), restricted to the shapes the conversion
engine distinguishes. `intObj` is an immediate integer (`IS_INTOBJ`);
`intLarge` is an arbitrary-precision integer bag (`T_INTPOS`/`T_INTNEG`,
which fails `IS_INTOBJ`); `macfloat` carries the 64 bits of the machine
double; `boolTrue`/`boolFalse`/`fail` are the three GAP constants;
`perm2`/`perm4` are the two fixed-width permutation representations
(point images in point order); `juliaObjH` is a `T_JULIA_OBJ` handle
bag; `other` stands for every other TNUM. Modelled from the spec: the
host's native boxed integer / float / string / boolean representations
are external collaborators, carried here as exact mathematical values. -/
inductive GapObj : Type where
  | intObj (v : Int)
  | intLarge (v : Int)
  | macfloat (bits : Nat)
  | string (s : String)
  | boolTrue
  | boolFalse
  | fail
  | perm2 (points : List Nat)
  | perm4 (points : List Nat)
  | plist (elems : GapObjList)
  | juliaObjH (h : JuliaHandle)
  | other
deriving DecidableEq

/-- The element sequence of a GAP plain list (`T_PLIST`), in index order. -/
inductive GapObjList : Type where
  | nil
  | cons (head : GapObj) (tail : GapObjList)
deriving DecidableEq

end

/-- The number of elements of a plain-list element sequence
(`LEN_PLIST`). -/
def GapObjList.length : GapObjList → Nat
  | .nil => 0
  | .cons _ t => t.length + 1

/-- The number of elements of a Julia array element sequence
(`jl_array_len`). -/
def JlValueList.length : JlValueList → Nat
  | .nil => 0
  | .cons _ t => t.length + 1

/-- Modelled from the spec: widening a 32-bit IEEE float to the host's
64-bit float, the implicit C conversion in
`NEW_MACFLOAT( jl_unbox_float32( julia_obj ) )`. Exact on every float32
value; stated on bit patterns. -/
def f32ToF64Bits (b : Nat) : Nat :=
  let sign := b / 2 ^ 31 % 2
  let ex := b / 2 ^ 23 % 2 ^ 8
  let frac := b % 2 ^ 23
  if ex = 255 then
    sign * 2 ^ 63 + 2047 * 2 ^ 52 + frac * 2 ^ 29
  else if ex = 0 then
    if frac = 0 then
      sign * 2 ^ 63
    else
      let n := Nat.log2 frac
      sign * 2 ^ 63 + (n + 874) * 2 ^ 52 + (frac - 2 ^ n) * 2 ^ (52 - n)
  else
    sign * 2 ^ 63 + (ex + 896) * 2 ^ 52 + frac * 2 ^ 29

mutual

/-- Embedding of `JuliaUnbox_internal`: dispatch on the Julia type tag.
Integers of width up to 64 bits become host immediate integers
(`INTOBJ_INT`), floats become machine doubles (`NEW_MACFLOAT`), strings
are copied byte for byte (`C_NEW_STRING` from `jl_string_len` /
`jl_string_data`), booleans map to `False`/`True` by testing
`jl_unbox_bool(x) == 0`, a 1-dimensional array becomes a plain list
whose elements are unboxed recursively in index order, and everything
else falls through to `Fail`. -/
def JuliaUnbox_internal : JlValue → GapObj
  | .int64 v => .intObj v
  | .int32 v => .intObj v
  | .int16 v => .intObj v
  | .int8 v => .intObj v
  | .uint64 v => .intObj (v : Int)
  | .uint32 v => .intObj (v : Int)
  | .uint16 v => .intObj (v : Int)
  | .uint8 v => .intObj (v : Int)
  | .float64 bits => .macfloat bits
  | .float32 bits => .macfloat (f32ToF64Bits bits)
  | .string s => .string s
  | .bool b => if b = false then .boolFalse else .boolTrue
  | .array elems => .plist (unboxArrayElems elems)
  | .nothing => .fail
  | .nullref => .fail
  | .other => .fail

/-- The element loop of `JuliaUnbox_internal` on a 1-dimensional array:
`jl_arrayref` each element in index order, unbox it recursively, and
`SET_ELM_PLIST` it at the corresponding 1-based position. -/
def unboxArrayElems : JlValueList → GapObjList
  | .nil => .nil
  | .cons x xs => .cons (JuliaUnbox_internal x) (unboxArrayElems xs)

end

/-- The `T_PERM2` loop of `JuliaBox_internal`: a Julia `UInt16` array of
the point images in point order (`jl_arrayref` on such an array hands
back boxed `UInt16` values). -/
def boxUInt16Array : List Nat → JlValueList
  | [] => .nil
  | p :: ps => .cons (.uint16 p) (boxUInt16Array ps)

/-- The `T_PERM4` loop of `JuliaBox_internal`: a Julia `UInt32` array of
the point images in point order. -/
def boxUInt32Array : List Nat → JlValueList
  | [] => .nil
  | p :: ps => .cons (.uint32 p) (boxUInt32Array ps)

mutual

/-- Embedding of `JuliaBox_internal`: dispatch on the GAP TNUM.
Immediate integers become boxed `Int64` (`jl_box_int64`), machine
floats boxed `Float64`, strings Julia strings, `True`/`False` boxed
booleans 1/0, the two permutation representations become 1-dimensional
`UInt16`/`UInt32` arrays of the point images in point order, a plain
list becomes a 1-dimensional any-typed array whose elements are boxed
recursively and assigned by index, and everything else — large
integers included (the `TODO: BIGINT` branch) — yields the C null
pointer. -/
def JuliaBox_internal : GapObj → JlValue
  | .intObj v => .int64 v
  | .macfloat bits => .float64 bits
  | .string s => .string s
  | .boolTrue => .bool true
  | .boolFalse => .bool false
  | .perm2 points => .array (boxUInt16Array points)
  | .perm4 points => .array (boxUInt32Array points)
  | .plist elems => .array (boxPlistElems elems)
  | .intLarge _ => .nullref
  | .fail => .nullref
  | .juliaObjH _ => .nullref
  | .other => .nullref

/-- The plain-list loop of `JuliaBox_internal`: box each element
recursively and `jl_arrayset` it at the corresponding 0-based index. -/
def boxPlistElems : GapObjList → JlValueList
  | .nil => .nil
  | .cons x xs => .cons (JuliaBox_internal x) (boxPlistElems xs)

end

mutual

/-- The host-value types the round-trip property quantifies over:
immediate integers, machine floats, strings, booleans, and plain lists
of such values, recursively. -/
def isSupportedHost : GapObj → Bool
  | .intObj _ => true
  | .macfloat _ => true
  | .string _ => true
  | .boolTrue => true
  | .boolFalse => true
  | .plist es => isSupportedHostList es
  | _ => false

/-- Every element of the list is a supported host value. -/
def isSupportedHostList : GapObjList → Bool
  | .nil => true
  | .cons x xs => isSupportedHost x && isSupportedHostList xs

end

/-- The Julia-value types `JuliaUnbox_internal` converts rather than
rejecting: integers of width up to 64 bits, floats, strings, booleans,
and 1-dimensional arrays. -/
def isSupportedGuest : JlValue → Bool
  | .nothing => false
  | .nullref => false
  | .other => false
  | _ => true

/-- The host-value types `JuliaBox_internal` converts rather than
rejecting at its top-level dispatch: immediate integers, machine
floats, strings, booleans, the two permutation representations, and
plain lists. -/
def isBoxableHost : GapObj → Bool
  | .intObj _ => true
  | .macfloat _ => true
  | .string _ => true
  | .boolTrue => true
  | .boolFalse => true
  | .perm2 _ => true
  | .perm4 _ => true
  | .plist _ => true
  | _ => false

/-- Modelled from the spec: Julia Base `pop!` on a 1-dimensional array
removes and returns the last element; on an empty array it raises, in
which case the `jl_call1` wrapper yields NULL and the interface code
dereferences it — modelled as `none`. -/
def arrayPop (l : List α) : Option (α × List α) :=
  match l.getLast? with
  | none => none
  | some x => some (x, l.dropLast)

/-- Modelled from the spec: Julia Base `push!` appends one element at the
end of a 1-dimensional array. -/
def arrayPush (l : List α) (x : α) : List α :=
  l ++ [x]

/-- Modelled from the spec: Julia Base `setindex!` writes in place at a
1-based index. An out-of-range index raises; every call site in the
interface goes through `jl_call3`, which swallows the exception and
whose result is discarded, so that case leaves the array unchanged. -/
def arraySetindex (l : List α) (x : α) (i : Int) : List α :=
  if 1 ≤ i ∧ i ≤ l.length then l.set (i - 1).toNat x else l

/-- The anchor table: the Julia global array `GAP_MEMORY_STORAGE`
(anchored values, `storage`) and the free-slot stack
`GAP_MEMORY_STORAGE_INTS` (`freeList`). -/
structure JuliaState : Type where
  storage : List JlValue
  freeList : List Int
deriving DecidableEq

/-- The anchor table as `InitKernel` creates it:
`GAP_MEMORY_STORAGE = [ ]` and `GAP_MEMORY_STORAGE_INTS = [ 1 ]`. -/
def initState : JuliaState :=
  ⟨[], [1]⟩

/-- Reading `GAP_MEMORY_STORAGE` at a 1-based index, as an out-of-model
observer would (`none` when out of range). -/
def storageAt (s : JuliaState) (i : Int) : Option JlValue :=
  if 1 ≤ i then s.storage[(i - 1).toNat]? else none

/-- The number of anchor slots currently handed out: storage cells not
on the free list, counting the one virtual cell one past the end of
storage that the free list always reaches. -/
def anchoredCount (s : JuliaState) : Int :=
  (s.storage.length : Int) + 1 - (s.freeList.length : Int)

/-- Embedding of `get_next_julia_position`: `pop!` the free list; if the
free list is empty afterwards (its length re-read through
`jl_eval_string`), `push!` one boxed `Int64` 0 onto storage and `push!`
the popped position plus one onto the free list; return the popped
position. `none` models the crash on `pop!` of an empty free list. -/
def get_next_julia_position (s : JuliaState) : Option (Int × JuliaState) :=
  match arrayPop s.freeList with
  | none => none
  | some (position, ints) =>
    if ints.length = 0 then
      some (position, ⟨arrayPush s.storage (.int64 0), arrayPush ints (position + 1)⟩)
    else
      some (position, ⟨s.storage, ints⟩)

/-- Embedding of `NewJuliaObj`: allocate a `T_JULIA_OBJ` bag holding the
raw Julia value, fetch the next free anchor position, store it in the
bag, and `setindex!` the raw value into storage at that position. -/
def NewJuliaObj (C : JlValue) (s : JuliaState) : Option (JuliaHandle × JuliaState) :=
  match get_next_julia_position s with
  | none => none
  | some (position, s1) =>
    some (⟨C, position⟩, ⟨arraySetindex s1.storage C position, s1.freeList⟩)

/-- Embedding of `JuliaObjFreeFunc`, the `T_JULIA_OBJ` finalizer: read
the anchor position from the bag, `setindex!` a boxed `Int64` 0 into
storage there, and `push!` the position back onto the free list. -/
def JuliaObjFreeFunc (val : JuliaHandle) (s : JuliaState) : JuliaState :=
  ⟨arraySetindex s.storage (.int64 0) val.index, arrayPush s.freeList val.index⟩

mutual

/-- The translation of `JuliaBox_internal` with the anchor-table state
threaded through every step, so that its effect on the anchor table
can be stated. The C function only calls `jl_box_*`,
`jl_cstr_to_string`, `jl_alloc_array_1d` and `jl_arrayset` on freshly
allocated arrays, never the anchor-table operations, so no step
changes the state. -/
def JuliaBox_internalS : GapObj → JuliaState → JlValue × JuliaState
  | .intObj v, s => (.int64 v, s)
  | .macfloat bits, s => (.float64 bits, s)
  | .string str, s => (.string str, s)
  | .boolTrue, s => (.bool true, s)
  | .boolFalse, s => (.bool false, s)
  | .perm2 points, s => (.array (boxUInt16Array points), s)
  | .perm4 points, s => (.array (boxUInt32Array points), s)
  | .plist elems, s =>
    match boxPlistElemsS elems s with
    | (js, s1) => (.array js, s1)
  | .intLarge _, s => (.nullref, s)
  | .fail, s => (.nullref, s)
  | .juliaObjH _, s => (.nullref, s)
  | .other, s => (.nullref, s)

/-- The plain-list loop of `JuliaBox_internal`, state threaded. -/
def boxPlistElemsS : GapObjList → JuliaState → JlValueList × JuliaState
  | .nil, s => (.nil, s)
  | .cons x xs, s =>
    match JuliaBox_internalS x s with
    | (j, s1) =>
      match boxPlistElemsS xs s1 with
      | (js, s2) => (.cons j js, s2)

end

/-- Embedding of `JuliaBox`: run `JuliaBox_internal`; a null result
yields `Fail`, otherwise the raw Julia value is wrapped in a new
`T_JULIA_OBJ` handle (which anchors it). `none` models the crash when
handle creation itself crashes. -/
def JuliaBox (obj : GapObj) (s : JuliaState) : Option (GapObj × JuliaState) :=
  match JuliaBox_internalS obj s with
  | (julia_ptr, s1) =>
    if julia_ptr = .nullref then
      some (.fail, s1)
    else
      match NewJuliaObj julia_ptr s1 with
      | none => none
      | some p => some (.juliaObjH p.1, p.2)

/-- Embedding of `JuliaUnbox`: fetch the raw Julia value from the handle
bag and delegate to `JuliaUnbox_internal`. -/
def JuliaUnbox (obj : JuliaHandle) : GapObj :=
  JuliaUnbox_internal obj.value

/-- Embedding of `JuliaEvalString`, with the guest evaluation step
(`jl_eval_string`, external) passed in as a function from source text
to result value. A result that is not Julia `nothing` is wrapped in a
new `T_JULIA_OBJ` handle; otherwise the function returns the null
`Obj` (the host-side absence marker), modelled as the inner `none`. -/
def JuliaEvalString (evalStr : String → JlValue) (string : String)
    (s : JuliaState) : Option (Option GapObj × JuliaState) :=
  if evalStr string = .nothing then
    some (none, s)
  else
    match NewJuliaObj (evalStr string) s with
    | none => none
    | some p => some (some (.juliaObjH p.1), p.2)

/-- One call into the anchor table, as exercised by the free-list
claims: an allocation (`get_next_julia_position`) or a finalizer run
(`JuliaObjFreeFunc` on some handle). -/
inductive AnchorOp : Type where
  | alloc
  | release (h : JuliaHandle)
deriving DecidableEq

/-- Run a sequence of anchor-table calls; allocation results are
discarded, `none` models a crash. -/
def runAnchorOps : List AnchorOp → JuliaState → Option JuliaState
  | [], s => some s
  | .alloc :: ops, s =>
    match get_next_julia_position s with
    | none => none
    | some p => runAnchorOps ops p.2
  | .release h :: ops, s => runAnchorOps ops (JuliaObjFreeFunc h s)

/-- The host-visible system state for the handle-lifetime claims: the
anchor table plus the list of live (not yet finalized) `T_JULIA_OBJ`
handles, most recent first. -/
structure Config : Type where
  st : JuliaState
  live : List JuliaHandle
deriving DecidableEq

/-- The system state right after `InitKernel`. -/
def initConfig : Config :=
  ⟨initState, []⟩

/-- A host-visible event: creation of a value handle around a raw Julia
value (`NewJuliaObj`, reached from `JuliaBox`, `JuliaEvalString` and
the call helpers), or the host collector finalizing the i-th live
handle (`JuliaObjFreeFunc`, which may fire at any point between
host-visible operations). -/
inductive HandleEvent : Type where
  | create (x : JlValue)
  | finalize (i : Nat)
deriving DecidableEq

/-- One host-visible step. Finalizing an index with no live handle is
not a behaviour of the system (each handle is finalized exactly once),
so it yields `none`. -/
def stepEvent (c : Config) : HandleEvent → Option Config
  | .create x =>
    match NewJuliaObj x c.st with
    | none => none
    | some p => some ⟨p.2, p.1 :: c.live⟩
  | .finalize i =>
    if h : i < c.live.length then
      some ⟨JuliaObjFreeFunc (c.live.get ⟨i, h⟩) c.st, c.live.eraseIdx i⟩
    else
      none

/-- Run a sequence of host-visible events. -/
def runEvents : List HandleEvent → Config → Option Config
  | [], c => some c
  | e :: es, c =>
    match stepEvent c e with
    | none => none
    | some d => runEvents es d

/-! ### Helper lemmas -/

theorem arrayPop_concat (l : List α) (x : α) : arrayPop (l ++ [x]) = some (x, l) := by
  unfold arrayPop
  rw [List.getLast?_concat, List.dropLast_concat]

theorem arrayPop_eq_some {l : List α} {p : α × List α} (h : arrayPop l = some p) :
    l = p.2 ++ [p.1] := by
  unfold arrayPop at h
  rcases hl : l.getLast? with _ | x
  · rw [hl] at h; simp at h
  · rw [hl] at h
    simp only [Option.some_inj] at h
    rcases List.getLast?_eq_some_iff.mp hl with ⟨ys, hys⟩
    subst hys
    rw [List.dropLast_concat] at h
    rw [← h]

theorem arraySetindex_length (l : List α) (x : α) (i : Int) :
    (arraySetindex l x i).length = l.length := by
  unfold arraySetindex
  split <;> simp

theorem get_next_julia_position_freeList {s : JuliaState} {p : Int × JuliaState}
    (h : get_next_julia_position s = some p) : p.2.freeList ≠ [] := by
  unfold get_next_julia_position at h
  rcases hl : arrayPop s.freeList with _ | q
  · rw [hl] at h; simp at h
  · obtain ⟨q1, q2⟩ := q
    rw [hl] at h
    dsimp only at h
    by_cases hq : q2.length = 0
    · rw [if_pos hq] at h
      simp only [Option.some_inj] at h
      rw [← h]
      simp [arrayPush]
    · rw [if_neg hq] at h
      simp only [Option.some_inj] at h
      rw [← h]
      intro hnil
      rw [show q2 = [] from hnil] at hq
      exact hq rfl

theorem storageAt_set_self {st : List JlValue} {i : Int} (x : JlValue) (fl : List Int)
    (h1 : 1 ≤ i) (h2 : i ≤ (st.length : Int)) :
    storageAt ⟨arraySetindex st x i, fl⟩ i = some x := by
  show (if 1 ≤ i then (arraySetindex st x i)[(i - 1).toNat]? else none) = some x
  rw [if_pos h1]
  unfold arraySetindex
  rw [if_pos ⟨h1, h2⟩]
  exact List.getElem?_set_self (by omega)

theorem storageAt_set_ne {st : List JlValue} {i j : Int} (x : JlValue) (fl fl2 : List Int)
    (h1 : 1 ≤ i) (hj : 1 ≤ j) (hne : j ≠ i) :
    storageAt ⟨arraySetindex st x i, fl⟩ j = storageAt ⟨st, fl2⟩ j := by
  show (if 1 ≤ j then (arraySetindex st x i)[(j - 1).toNat]? else none)
      = (if 1 ≤ j then st[(j - 1).toNat]? else none)
  rw [if_pos hj, if_pos hj]
  unfold arraySetindex
  split
  · rw [List.getElem?_set, if_neg (by omega)]
  · rfl

theorem eraseIdx_map (f : α → β) : ∀ (l : List α) (i : Nat),
    (l.eraseIdx i).map f = (l.map f).eraseIdx i
  | [], _ => rfl
  | _ :: _, 0 => rfl
  | a :: t, i + 1 => by simp [List.eraseIdx, eraseIdx_map f t i]

theorem nodup_eraseIdx_ne : ∀ (l : List α) (i : Nat), l.Nodup → ∀ (hi : i < l.length),
    ∀ x ∈ l.eraseIdx i, x ≠ l.get ⟨i, hi⟩
  | [], _, _, hi => absurd hi (by simp)
  | a :: t, 0, hnd, _ => by
    intro x hx hxa
    simp only [List.eraseIdx] at hx
    exact (List.nodup_cons.mp hnd).1 ((show x = a from hxa) ▸ hx)
  | a :: t, i + 1, hnd, hi => by
    intro x hx heq
    simp only [List.eraseIdx] at hx
    rcases List.mem_cons.mp hx with hxa | hx2
    · refine (List.nodup_cons.mp hnd).1 ?_
      rw [← hxa, heq]
      exact List.get_mem t i (by simpa using hi)
    · exact nodup_eraseIdx_ne t i (List.nodup_cons.mp hnd).2 (by simpa using hi) x hx2 heq

/-! ### Claim C2: the free-slot allocator -/

/-- C2 counterexample: from the initialized anchor table, the first
allocation pops index 1 and extends storage to length 1, but the
replacement free index it pushes is 2, not the new storage length 1 as
the claim states. -/
theorem get_next_julia_position_cex :
    get_next_julia_position initState = some (1, ⟨[.int64 0], [2]⟩) ∧
    ¬ ((⟨[.int64 0], [2]⟩ : JuliaState).freeList
        = [((⟨[.int64 0], [2]⟩ : JuliaState).storage.length : Int)]) := by
  decide

/-- C2 (amended): `get_next_julia_position` pops the last entry of the
free-list array; if the free list is empty after that pop, it extends
storage by exactly one sentinel element and pushes the popped index
plus one (one more than the new storage length) onto the free list as
the replacement free index; it returns the popped index. -/
theorem get_next_julia_position_spec (s : JuliaState) (pos : Int) (t : JuliaState)
    (h : get_next_julia_position s = some (pos, t)) :
    s.freeList.getLast? = some pos ∧
    (s.freeList.length = 1 →
      t.storage = s.storage ++ [.int64 0] ∧ t.freeList = [pos + 1]) ∧
    (s.freeList.length ≠ 1 →
      t.storage = s.storage ∧ t.freeList = s.freeList.dropLast) := by
  unfold get_next_julia_position at h
  rcases hl : arrayPop s.freeList with _ | q
  · rw [hl] at h; simp at h
  · obtain ⟨q1, q2⟩ := q
    have hdec := arrayPop_eq_some hl
    rw [hl] at h
    dsimp only at h
    have hlast : s.freeList.getLast? = some q1 := by
      rw [hdec]; exact List.getLast?_concat _
    have hlen : s.freeList.length = q2.length + 1 := by
      rw [hdec]; simp
    have hdrop : s.freeList.dropLast = q2 := by
      rw [hdec]; exact List.dropLast_concat
    by_cases hq : q2.length = 0
    · rw [if_pos hq] at h
      simp only [Option.some_inj, Prod.mk.injEq] at h
      obtain ⟨h1, h2⟩ := h
      subst h1
      subst h2
      refine ⟨hlast, fun _ => ?_, fun hne => absurd (by omega) hne⟩
      refine ⟨rfl, ?_⟩
      show arrayPush q2 (q1 + 1) = [q1 + 1]
      rw [List.length_eq_zero.mp hq]
      rfl
    · rw [if_neg hq] at h
      simp only [Option.some_inj, Prod.mk.injEq] at h
      obtain ⟨h1, h2⟩ := h
      subst h1
      subst h2
      exact ⟨hlast, fun h1 => absurd h1 (by omega), fun _ => ⟨rfl, hdrop.symm⟩⟩

/-- Witness for C2's amended theorem at the initialized state. -/
theorem get_next_julia_position_spec_witness :
    ([(1 : Int)] : List Int).getLast? = some 1 ∧
    (([(1 : Int)] : List Int).length = 1 →
      ([JlValue.int64 0] : List JlValue) = [] ++ [.int64 0] ∧ ([(2 : Int)] : List Int) = [1 + 1]) ∧
    (([(1 : Int)] : List Int).length ≠ 1 →
      ([JlValue.int64 0] : List JlValue) = [] ∧ ([(2 : Int)] : List Int) = [(1 : Int)].dropLast) :=
  get_next_julia_position_spec initState 1 ⟨[.int64 0], [2]⟩ (by decide)

/-! ### Claim C3: free-list non-emptiness after every allocation -/

/-- C3: starting from the initialized anchor table, after any sequence
of allocator / finalizer calls whose last call is an allocation that
returns, the free list is non-empty. -/
theorem freeList_nonempty_after_alloc (ops : List AnchorOp) (t : JuliaState)
    (h : runAnchorOps (ops ++ [.alloc]) initState = some t) :
    t.freeList ≠ [] := by
  suffices key : ∀ (ops : List AnchorOp) (s t : JuliaState),
      runAnchorOps (ops ++ [.alloc]) s = some t → t.freeList ≠ [] from
    key ops initState t h
  intro ops
  induction ops with
  | nil =>
    intro s t h
    simp only [List.nil_append, runAnchorOps] at h
    rcases hl : get_next_julia_position s with _ | p
    · rw [hl] at h; simp at h
    · rw [hl] at h
      simp only [runAnchorOps, Option.some_inj] at h
      exact h ▸ get_next_julia_position_freeList hl
  | cons op ops ih =>
    intro s t h
    cases op with
    | alloc =>
      simp only [List.cons_append, runAnchorOps] at h
      rcases hl : get_next_julia_position s with _ | p
      · rw [hl] at h; simp at h
      · rw [hl] at h
        exact ih p.2 t h
    | release hd =>
      simp only [List.cons_append, runAnchorOps] at h
      exact ih _ t h

/-- Witness for C3: a single allocation from the initialized state. -/
theorem freeList_nonempty_after_alloc_witness :
    runAnchorOps ([] ++ [AnchorOp.alloc]) initState = some ⟨[.int64 0], [2]⟩ ∧
    (⟨[.int64 0], [2]⟩ : JuliaState).freeList ≠ [] :=
  ⟨by decide, freeList_nonempty_after_alloc [] ⟨[.int64 0], [2]⟩ (by decide)⟩

/-! ### Claim C5: the finalizer -/

/-- C5: the `T_JULIA_OBJ` finalizer on a handle holding an in-range
anchor index resets the storage entry at that index to the sentinel
`Int64` 0, pushes the index back onto the free list, changes nothing
else, and in particular never shrinks storage. -/
theorem JuliaObjFreeFunc_spec (hd : JuliaHandle) (s : JuliaState)
    (hb : 1 ≤ hd.index ∧ hd.index ≤ (s.storage.length : Int)) :
    JuliaObjFreeFunc hd s =
      ⟨s.storage.set (hd.index - 1).toNat (.int64 0), s.freeList ++ [hd.index]⟩ ∧
    storageAt (JuliaObjFreeFunc hd s) hd.index = some (.int64 0) ∧
    (JuliaObjFreeFunc hd s).storage.length = s.storage.length := by
  refine ⟨?_, ?_, ?_⟩
  · unfold JuliaObjFreeFunc arraySetindex arrayPush
    rw [if_pos hb]
  · exact storageAt_set_self _ _ hb.1 hb.2
  · exact arraySetindex_length _ _ _

/-- Witness for C5 at a concrete one-slot state. -/
theorem JuliaObjFreeFunc_spec_witness :
    JuliaObjFreeFunc ⟨.string "a", 1⟩ ⟨[.string "a"], [2]⟩ =
      ⟨([JlValue.string "a"] : List JlValue).set ((1 : Int) - 1).toNat (.int64 0),
        [(2 : Int)] ++ [(1 : Int)]⟩ ∧
    storageAt (JuliaObjFreeFunc ⟨.string "a", 1⟩ ⟨[.string "a"], [2]⟩) 1 = some (.int64 0) ∧
    (JuliaObjFreeFunc ⟨.string "a", 1⟩ ⟨[.string "a"], [2]⟩).storage.length
      = ([JlValue.string "a"] : List JlValue).length :=
  JuliaObjFreeFunc_spec ⟨.string "a", 1⟩ ⟨[.string "a"], [2]⟩ (by decide)

/-! ### Claim C10: unboxing an empty array -/

/-- C10: through the public `JuliaUnbox` interface, a handle on an empty
1-dimensional Julia array unboxes to the empty plain list (a host list
of length zero), not to the failure sentinel. -/
theorem unbox_empty_array (hd : JuliaHandle) (hv : hd.value = .array .nil) :
    (∃ es : GapObjList, JuliaUnbox hd = .plist es ∧ es.length = 0) ∧
    JuliaUnbox hd ≠ .fail := by
  unfold JuliaUnbox
  rw [hv]
  exact ⟨⟨.nil, rfl, rfl⟩, by decide⟩

/-- Witness for C10 on a concrete handle. -/
theorem unbox_empty_array_witness :
    (∃ es : GapObjList, JuliaUnbox ⟨.array .nil, 1⟩ = .plist es ∧ es.length = 0) ∧
    JuliaUnbox ⟨.array .nil, 1⟩ ≠ .fail :=
  unbox_empty_array ⟨.array .nil, 1⟩ rfl

/-! ### Claim C8: integer unboxing of every width -/

/-- C8: every Julia integer of signed or unsigned width up to 64 bits
unboxes to the host native integer with the same mathematical value. -/
theorem unbox_small_ints (a b c d : Int) (e f g k : Nat)
    (ha : -(2 : Int) ^ 63 ≤ a ∧ a < 2 ^ 63) (hb : -(2 : Int) ^ 31 ≤ b ∧ b < 2 ^ 31)
    (hc : -(2 : Int) ^ 15 ≤ c ∧ c < 2 ^ 15) (hd : -(2 : Int) ^ 7 ≤ d ∧ d < 2 ^ 7)
    (he : e < 2 ^ 64) (hf : f < 2 ^ 32) (hg : g < 2 ^ 16) (hk : k < 2 ^ 8) :
    JuliaUnbox_internal (.int64 a) = .intObj a ∧
    JuliaUnbox_internal (.int32 b) = .intObj b ∧
    JuliaUnbox_internal (.int16 c) = .intObj c ∧
    JuliaUnbox_internal (.int8 d) = .intObj d ∧
    JuliaUnbox_internal (.uint64 e) = .intObj (e : Int) ∧
    JuliaUnbox_internal (.uint32 f) = .intObj (f : Int) ∧
    JuliaUnbox_internal (.uint16 g) = .intObj (g : Int) ∧
    JuliaUnbox_internal (.uint8 k) = .intObj (k : Int) :=
  ⟨rfl, rfl, rfl, rfl, rfl, rfl, rfl, rfl⟩

/-- Witness for C8 at concrete values of every width. -/
theorem unbox_small_ints_witness :
    JuliaUnbox_internal (.int64 (-5)) = .intObj (-5) ∧
    JuliaUnbox_internal (.int32 1000000) = .intObj 1000000 ∧
    JuliaUnbox_internal (.int16 (-300)) = .intObj (-300) ∧
    JuliaUnbox_internal (.int8 100) = .intObj 100 ∧
    JuliaUnbox_internal (.uint64 12345678901) = .intObj ((12345678901 : Nat) : Int) ∧
    JuliaUnbox_internal (.uint32 4000000000) = .intObj ((4000000000 : Nat) : Int) ∧
    JuliaUnbox_internal (.uint16 65535) = .intObj ((65535 : Nat) : Int) ∧
    JuliaUnbox_internal (.uint8 255) = .intObj ((255 : Nat) : Int) :=
  unbox_small_ints (-5) 1000000 (-300) 100 12345678901 4000000000 65535 255
    (by norm_num) (by norm_num) (by norm_num) (by norm_num)
    (by norm_num) (by norm_num) (by norm_num) (by norm_num)

/-! ### Claim C6: unsupported types yield the failure sentinel -/

/-- Helper: from a non-empty free list, `NewJuliaObj` succeeds and the
created handle holds the given raw value. -/
theorem NewJuliaObj_of_ne_nil (C : JlValue) (s : JuliaState) (h : s.freeList ≠ []) :
    ∃ p : JuliaHandle × JuliaState, NewJuliaObj C s = some p ∧ p.1.value = C := by
  rcases hl : s.freeList.getLast? with _ | x
  · exact absurd (List.getLast?_eq_none_iff.mp hl) h
  · have hpop : arrayPop s.freeList = some (x, s.freeList.dropLast) := by
      unfold arrayPop; rw [hl]
    unfold NewJuliaObj get_next_julia_position
    rw [hpop]
    dsimp only
    by_cases hq : s.freeList.dropLast.length = 0
    · rw [if_pos hq]
      exact ⟨_, rfl, rfl⟩
    · rw [if_neg hq]
      exact ⟨_, rfl, rfl⟩

/-- C6: a Julia value outside the supported guest set unboxes to `Fail`,
and a host value outside the supported host set — an
arbitrary-precision integer wider than 64 bits included — boxes to
`Fail` through `JuliaBox`, without a crash and without touching the
anchor table. -/
theorem unsupported_conversion_fails (j : JlValue) (obj : GapObj) (s : JuliaState)
    (hj : isSupportedGuest j = false) (hobj : isBoxableHost obj = false) :
    JuliaUnbox_internal j = .fail ∧ JuliaBox obj s = some (.fail, s) := by
  constructor
  · cases j <;> simp_all [isSupportedGuest, JuliaUnbox_internal]
  · cases obj <;> simp_all [isBoxableHost, JuliaBox, JuliaBox_internalS]

/-- Witness for C6: a guest `BigInt` (outside the dispatched set) and a
host large integer of roughly 100 bits. -/
theorem unsupported_conversion_fails_witness :
    JuliaUnbox_internal .other = .fail ∧
    JuliaBox (.intLarge (2 ^ 100)) initState = some (.fail, initState) :=
  unsupported_conversion_fails .other (.intLarge (2 ^ 100)) initState (by decide) (by decide)

/-! ### Claim C7: eval-string and the absence marker -/

/-- C7: `JuliaEvalString` returns the null `Obj` (absence marker) when
the evaluated expression produces Julia `nothing`, and otherwise a new
`T_JULIA_OBJ` handle wrapping the result. -/
theorem JuliaEvalString_spec (evalStr : String → JlValue) (str : String) (s : JuliaState) :
    (evalStr str = .nothing → JuliaEvalString evalStr str s = some (none, s)) ∧
    (evalStr str ≠ .nothing → s.freeList ≠ [] →
      ∃ (hd : JuliaHandle) (t : JuliaState),
        JuliaEvalString evalStr str s = some (some (.juliaObjH hd), t) ∧
        hd.value = evalStr str) := by
  constructor
  · intro h
    unfold JuliaEvalString
    rw [if_pos h]
  · intro h hfree
    obtain ⟨p, hp, hv⟩ := NewJuliaObj_of_ne_nil (evalStr str) s hfree
    unfold JuliaEvalString
    rw [if_neg h, hp]
    exact ⟨p.1, p.2, rfl, hv⟩

/-- Witness for C7: an expression evaluating to `nothing` yields the
absence marker, one evaluating to `Int64` 5 yields a handle on it. -/
theorem JuliaEvalString_spec_witness :
    JuliaEvalString (fun _ => .nothing) "nothing" initState = some (none, initState) ∧
    ∃ (hd : JuliaHandle) (t : JuliaState),
      JuliaEvalString (fun _ => .int64 5) "5" initState = some (some (.juliaObjH hd), t) ∧
      hd.value = (fun _ : String => JlValue.int64 5) "5" :=
  ⟨(JuliaEvalString_spec (fun _ => .nothing) "nothing" initState).1 rfl,
   (JuliaEvalString_spec (fun _ => .int64 5) "5" initState).2 (by decide) (by decide)⟩

/-! ### Claim C9: boxing never anchors; only JuliaBox does, once -/

mutual

theorem boxS_eq_aux : ∀ (obj : GapObj) (s : JuliaState),
    JuliaBox_internalS obj s = (JuliaBox_internal obj, s)
  | .intObj _, _ => rfl
  | .intLarge _, _ => rfl
  | .macfloat _, _ => rfl
  | .string _, _ => rfl
  | .boolTrue, _ => rfl
  | .boolFalse, _ => rfl
  | .fail, _ => rfl
  | .perm2 _, _ => rfl
  | .perm4 _, _ => rfl
  | .juliaObjH _, _ => rfl
  | .other, _ => rfl
  | .plist es, s => by
    simp only [JuliaBox_internalS, JuliaBox_internal, boxLS_eq_aux es s]

theorem boxLS_eq_aux : ∀ (es : GapObjList) (s : JuliaState),
    boxPlistElemsS es s = (boxPlistElems es, s)
  | .nil, _ => rfl
  | .cons x xs, s => by
    simp only [boxPlistElemsS, boxPlistElems, boxS_eq_aux x s, boxLS_eq_aux xs s]

end

/-- Helper: the shape of a successful `NewJuliaObj` result. -/
theorem NewJuliaObj_value {C : JlValue} {s : JuliaState} {p : JuliaHandle × JuliaState}
    (h : NewJuliaObj C s = some p) : p.1.value = C := by
  unfold NewJuliaObj at h
  rcases hg : get_next_julia_position s with _ | q
  · rw [hg] at h; simp at h
  · rw [hg] at h
    dsimp only at h
    simp only [Option.some_inj] at h
    rw [← h]

/-- Helper: the storage / free-list lengths across one allocation. -/
theorem get_next_julia_position_lengths {s : JuliaState} {q : Int × JuliaState}
    (hg : get_next_julia_position s = some q) :
    (q.2.storage.length = s.storage.length ∧ q.2.freeList.length + 1 = s.freeList.length) ∨
    (q.2.storage.length = s.storage.length + 1 ∧ q.2.freeList.length = 1 ∧
      s.freeList.length = 1) := by
  unfold get_next_julia_position at hg
  rcases hl : arrayPop s.freeList with _ | q0
  · rw [hl] at hg; simp at hg
  · obtain ⟨q1, q2⟩ := q0
    have hdec := arrayPop_eq_some hl
    have hlen : s.freeList.length = q2.length + 1 := by rw [hdec]; simp
    rw [hl] at hg
    dsimp only at hg
    by_cases hq : q2.length = 0
    · rw [if_pos hq] at hg
      simp only [Option.some_inj] at hg
      right
      rw [← hg]
      refine ⟨?_, ?_, by omega⟩
      · show (arrayPush s.storage (.int64 0)).length = s.storage.length + 1
        simp [arrayPush]
      · show (arrayPush q2 (q1 + 1)).length = 1
        rw [List.length_eq_zero.mp hq]
        rfl
    · rw [if_neg hq] at hg
      simp only [Option.some_inj] at hg
      left
      rw [← hg]
      refine ⟨rfl, ?_⟩
      show q2.length + 1 = s.freeList.length
      omega

/-- Helper: a successful `NewJuliaObj` increases the anchored-slot count
by exactly one. -/
theorem NewJuliaObj_anchoredCount {C : JlValue} {s : JuliaState} {p : JuliaHandle × JuliaState}
    (h : NewJuliaObj C s = some p) : anchoredCount p.2 = anchoredCount s + 1 := by
  unfold NewJuliaObj at h
  rcases hg : get_next_julia_position s with _ | q
  · rw [hg] at h; simp at h
  · rw [hg] at h
    dsimp only at h
    simp only [Option.some_inj] at h
    have hlen := get_next_julia_position_lengths hg
    have hst : p.2.storage.length = q.2.storage.length := by
      rw [← h]
      exact arraySetindex_length _ _ _
    have hfl : p.2.freeList = q.2.freeList := by rw [← h]
    unfold anchoredCount
    rw [hst, hfl]
    rcases hlen with ⟨h1, h2⟩ | ⟨h1, h2, h3⟩ <;> rw [h1] <;> push_cast <;> omega

/-- C9: the recursive boxing engine leaves the anchor table completely
unchanged (also across nested list elements) and produces the same raw
value as the pure reading of the code; a successful top-level
`JuliaBox` wraps exactly that raw value in the new handle and occupies
exactly one anchor slot. -/
theorem box_internal_frame (obj : GapObj) (s : JuliaState) :
    (JuliaBox_internalS obj s).2 = s ∧
    (JuliaBox_internalS obj s).1 = JuliaBox_internal obj ∧
    ∀ (hd : JuliaHandle) (t : JuliaState), JuliaBox obj s = some (.juliaObjH hd, t) →
      hd.value = JuliaBox_internal obj ∧ anchoredCount t = anchoredCount s + 1 := by
  refine ⟨by rw [boxS_eq_aux], by rw [boxS_eq_aux], ?_⟩
  intro hd t hbox
  unfold JuliaBox at hbox
  rw [boxS_eq_aux] at hbox
  dsimp only at hbox
  by_cases hnull : JuliaBox_internal obj = .nullref
  · rw [if_pos hnull] at hbox
    simp at hbox
  · rw [if_neg hnull] at hbox
    rcases hN : NewJuliaObj (JuliaBox_internal obj) s with _ | p
    · rw [hN] at hbox; simp at hbox
    · rw [hN] at hbox
      dsimp only at hbox
      simp only [Option.some_inj, Prod.mk.injEq, GapObj.juliaObjH.injEq] at hbox
      obtain ⟨h1, h2⟩ := hbox
      refine ⟨?_, ?_⟩
      · rw [← h1]
        exact NewJuliaObj_value hN
      · rw [← h2]
        exact NewJuliaObj_anchoredCount hN

/-- Witness for C9: boxing the one-element list `[ 1 ]` from the
initialized state. -/
theorem box_internal_frame_witness :
    (⟨.array (.cons (.int64 1) .nil), 1⟩ : JuliaHandle).value
      = JuliaBox_internal (.plist (.cons (.intObj 1) .nil)) ∧
    anchoredCount ⟨[.array (.cons (.int64 1) .nil)], [2]⟩ = anchoredCount initState + 1 :=
  (box_internal_frame (.plist (.cons (.intObj 1) .nil)) initState).2.2
    ⟨.array (.cons (.int64 1) .nil), 1⟩ ⟨[.array (.cons (.int64 1) .nil)], [2]⟩ (by decide)

/-! ### Claim C1: the round trip -/

mutual

theorem unbox_box_aux : ∀ (v : GapObj), isSupportedHost v = true →
    JuliaUnbox_internal (JuliaBox_internal v) = v
  | .intObj _, _ => rfl
  | .macfloat _, _ => rfl
  | .string _, _ => rfl
  | .boolTrue, _ => rfl
  | .boolFalse, _ => rfl
  | .plist es, h => by
    have hl := unbox_boxList_aux es (by simpa [isSupportedHost] using h)
    simp only [JuliaBox_internal, JuliaUnbox_internal, hl]
  | .intLarge _, h => by simp [isSupportedHost] at h
  | .perm2 _, h => by simp [isSupportedHost] at h
  | .perm4 _, h => by simp [isSupportedHost] at h
  | .fail, h => by simp [isSupportedHost] at h
  | .juliaObjH _, h => by simp [isSupportedHost] at h
  | .other, h => by simp [isSupportedHost] at h

theorem unbox_boxList_aux : ∀ (es : GapObjList), isSupportedHostList es = true →
    unboxArrayElems (boxPlistElems es) = es
  | .nil, _ => rfl
  | .cons x xs, h => by
    have hsplit : isSupportedHost x = true ∧ isSupportedHostList xs = true := by
      simpa [isSupportedHostList, Bool.and_eq_true] using h
    simp only [boxPlistElems, unboxArrayElems, unbox_box_aux x hsplit.1,
      unbox_boxList_aux xs hsplit.2]

end

/-- C1: boxing a supported host value (immediate integer, machine
float, string, boolean, or plain list of such values, recursively) and
unboxing the resulting raw Julia value gives back a structurally equal
host value; for lists the elements come back in the same index order,
since structural equality of plain lists fixes the element order. -/
theorem unbox_box_roundtrip (v : GapObj) (hs : isSupportedHost v = true) :
    JuliaUnbox_internal (JuliaBox_internal v) = v :=
  unbox_box_aux v hs

/-- Witness for C1: a heterogeneous nested list. -/
theorem unbox_box_roundtrip_witness :
    isSupportedHost (.plist (.cons (.intObj 3) (.cons (.string "ab") (.cons .boolTrue
      (.cons (.plist (.cons (.macfloat 7) .nil)) .nil))))) = true ∧
    JuliaUnbox_internal (JuliaBox_internal (.plist (.cons (.intObj 3) (.cons (.string "ab")
      (.cons .boolTrue (.cons (.plist (.cons (.macfloat 7) .nil)) .nil))))))
      = .plist (.cons (.intObj 3) (.cons (.string "ab") (.cons .boolTrue
          (.cons (.plist (.cons (.macfloat 7) .nil)) .nil)))) :=
  ⟨by decide,
   unbox_box_roundtrip (.plist (.cons (.intObj 3) (.cons (.string "ab") (.cons .boolTrue
     (.cons (.plist (.cons (.macfloat 7) .nil)) .nil))))) (by decide)⟩

/-! ### Claim C4: anchor liveness of every live handle -/

theorem set_append_last (l : List α) (a x : α) : (l ++ [a]).set l.length x = l ++ [x] := by
  rw [List.set_append, if_neg (by omega)]
  simp

theorem storageAt_append {st : List JlValue} (ap : List JlValue) (fl fl2 : List Int) {j : Int}
    (h1 : 1 ≤ j) (h2 : j ≤ (st.length : Int)) :
    storageAt ⟨st ++ ap, fl⟩ j = storageAt ⟨st, fl2⟩ j := by
  show (if 1 ≤ j then (st ++ ap)[(j - 1).toNat]? else none)
      = (if 1 ≤ j then st[(j - 1).toNat]? else none)
  rw [if_pos h1, if_pos h1, List.getElem?_append_left (by omega)]

theorem storageAt_concat_last (st : List JlValue) (x : JlValue) (fl : List Int) :
    storageAt ⟨st ++ [x], fl⟩ ((st.length : Int) + 1) = some x := by
  show (if (1 : Int) ≤ (st.length : Int) + 1
      then (st ++ [x])[(((st.length : Int) + 1) - 1).toNat]? else none) = some x
  rw [if_pos (by omega), show (((st.length : Int) + 1) - 1).toNat = st.length by omega,
    List.getElem?_concat_length]

/-- Helper: the two shapes of a successful `NewJuliaObj`, split on
whether popping emptied the free list (growth) or not. -/
theorem NewJuliaObj_cases {C : JlValue} {s : JuliaState} {p : JuliaHandle × JuliaState}
    (h : NewJuliaObj C s = some p) :
    ∃ pos ys, s.freeList = ys ++ [pos] ∧ p.1 = ⟨C, pos⟩ ∧
      ((ys = [] ∧ p.2 = ⟨arraySetindex (s.storage ++ [.int64 0]) C pos, [pos + 1]⟩) ∨
       (ys ≠ [] ∧ p.2 = ⟨arraySetindex s.storage C pos, ys⟩)) := by
  unfold NewJuliaObj get_next_julia_position at h
  rcases hl : arrayPop s.freeList with _ | q0
  · rw [hl] at h; simp at h
  · obtain ⟨q1, q2⟩ := q0
    rw [hl] at h
    dsimp only at h
    refine ⟨q1, q2, arrayPop_eq_some hl, ?_⟩
    by_cases hq : q2.length = 0
    · rw [if_pos hq] at h
      dsimp only at h
      simp only [Option.some_inj] at h
      have hq2 : q2 = [] := List.length_eq_zero.mp hq
      subst hq2
      rw [← h]
      exact ⟨rfl, .inl ⟨rfl, rfl⟩⟩
    · rw [if_neg hq] at h
      dsimp only at h
      simp only [Option.some_inj] at h
      rw [← h]
      refine ⟨rfl, .inr ⟨?_, rfl⟩⟩
      intro hnil
      rw [hnil] at hq
      exact hq rfl

/-- The reachability invariant of the handle system: the bottom of the
free-list stack is the frontier index one past the end of storage, the
rest of the free list is in-range and duplicate-free, live handles have
pairwise distinct in-range indices disjoint from the free list, and
every live handle's storage cell holds its raw value. -/
structure Inv (c : Config) : Prop where
  frontier : c.st.freeList.head? = some ((c.st.storage.length : Int) + 1)
  free_tail_bounds : ∀ i ∈ c.st.freeList.tail, 1 ≤ i ∧ i ≤ (c.st.storage.length : Int)
  free_nodup : c.st.freeList.Nodup
  live_bounds : ∀ hd ∈ c.live, 1 ≤ hd.index ∧ hd.index ≤ (c.st.storage.length : Int)
  live_val : ∀ hd ∈ c.live, storageAt c.st hd.index = some hd.value
  live_nodup : (c.live.map JuliaHandle.index).Nodup
  live_free : ∀ hd ∈ c.live, hd.index ∉ c.st.freeList

theorem inv_init : Inv initConfig := by
  constructor <;> simp [initConfig, initState]

theorem inv_create {c : Config} (inv : Inv c) {x : JlValue} {d : Config}
    (h : stepEvent c (.create x) = some d) : Inv d := by
  unfold stepEvent at h
  dsimp only at h
  rcases hN : NewJuliaObj x c.st with _ | p
  · rw [hN] at h; simp at h
  · rw [hN] at h
    dsimp only at h
    simp only [Option.some_inj] at h
    subst h
    obtain ⟨pos, ys, hfree, hp1, hcase⟩ := NewJuliaObj_cases hN
    have hfr := inv.frontier
    rcases hcase with ⟨hys, hp2⟩ | ⟨hys, hp2⟩
    · -- growth: the popped index was the frontier
      subst hys
      have hfree2 : c.st.freeList = [pos] := by simpa using hfree
      have hpos : pos = (c.st.storage.length : Int) + 1 := by
        rw [hfree2, List.head?_cons, Option.some_inj] at hfr
        exact hfr
      have hcond : 1 ≤ pos ∧ pos ≤ ((c.st.storage ++ [JlValue.int64 0]).length : Int) := by
        simp only [List.length_append, List.length_cons, List.length_nil]
        push_cast
        omega
      have hset : arraySetindex (c.st.storage ++ [.int64 0]) x pos
          = c.st.storage ++ [x] := by
        unfold arraySetindex
        rw [if_pos hcond,
          show (pos - 1).toNat = c.st.storage.length by omega,
          set_append_last]
      have hp2b : p.2 = ⟨c.st.storage ++ [x], [pos + 1]⟩ := by rw [hp2, hset]
      rw [hp1, hp2b]
      constructor
      · show some (pos + 1) = some (((c.st.storage ++ [x]).length : Int) + 1)
        rw [Option.some_inj]
        simp only [List.length_append, List.length_cons, List.length_nil]
        push_cast
        omega
      · intro i hi
        simp at hi
      · simp
      · intro hd hmem
        rcases List.mem_cons.mp hmem with he | hmem2
        · rw [he]
          show 1 ≤ pos ∧ pos ≤ ((c.st.storage ++ [x]).length : Int)
          simp only [List.length_append, List.length_cons, List.length_nil]
          push_cast
          omega
        · have hb := inv.live_bounds hd hmem2
          show 1 ≤ hd.index ∧ hd.index ≤ ((c.st.storage ++ [x]).length : Int)
          simp only [List.length_append, List.length_cons, List.length_nil]
          push_cast
          omega
      · intro hd hmem
        rcases List.mem_cons.mp hmem with rfl | hmem2
        · show storageAt _ pos = some x
          rw [hpos]
          exact storageAt_concat_last _ _ _
        · have hb := inv.live_bounds hd hmem2
          rw [storageAt_append [x] [pos + 1] c.st.freeList hb.1 hb.2]
          exact inv.live_val hd hmem2
      · rw [List.map_cons, List.nodup_cons]
        dsimp only
        refine ⟨?_, inv.live_nodup⟩
        intro hmem
        rcases List.mem_map.mp hmem with ⟨hd, hmem2, hidx⟩
        have := inv.live_bounds hd hmem2
        omega
      · intro hd hmem
        rcases List.mem_cons.mp hmem with he | hmem2
        · rw [he]
          show pos ∉ [pos + 1]
          intro hmem3
          simp only [List.mem_singleton] at hmem3
          omega
        · have := inv.live_bounds hd hmem2
          show hd.index ∉ [pos + 1]
          intro hmem3
          simp only [List.mem_singleton] at hmem3
          omega
    · -- recycle: the popped index came from a released slot
      have hys2 : ∃ f ys2, ys = f :: ys2 := by
        rcases ys with _ | ⟨f, ys2⟩
        · exact absurd rfl hys
        · exact ⟨f, ys2, rfl⟩
      obtain ⟨f, ys2, rfl⟩ := hys2
      have hfr2 : f = (c.st.storage.length : Int) + 1 := by
        rw [hfree, List.cons_append, List.head?_cons, Option.some_inj] at hfr
        exact hfr
      have hposmem : pos ∈ c.st.freeList.tail := by
        rw [hfree]
        simp
      have hposB := inv.free_tail_bounds pos hposmem
      have hposfree : pos ∈ c.st.freeList := by
        rw [hfree]
        exact List.mem_append_right _ (by simp)
      rw [hp1, hp2]
      have hlenS : (arraySetindex c.st.storage x pos).length = c.st.storage.length :=
        arraySetindex_length _ _ _
      constructor
      · show (f :: ys2).head? = _
        rw [List.head?_cons, Option.some_inj, hlenS, hfr2]
      · intro i hi
        have hi2 : i ∈ c.st.freeList.tail := by
          rw [hfree]
          exact List.mem_append_left _ (by simpa using hi)
        have := inv.free_tail_bounds i hi2
        rw [hlenS]
        exact this
      · refine List.Sublist.nodup ?_ inv.free_nodup
        rw [hfree]
        exact List.sublist_append_left _ _
      · intro hd hmem
        rw [hlenS]
        rcases List.mem_cons.mp hmem with rfl | hmem2
        · exact hposB
        · exact inv.live_bounds hd hmem2
      · intro hd hmem
        rcases List.mem_cons.mp hmem with rfl | hmem2
        · exact storageAt_set_self x _ hposB.1 hposB.2
        · have hb := inv.live_bounds hd hmem2
          have hne : hd.index ≠ pos := by
            intro he
            exact inv.live_free hd hmem2 (he ▸ hposfree)
          rw [storageAt_set_ne x _ c.st.freeList hposB.1 hb.1 hne]
          exact inv.live_val hd hmem2
      · rw [List.map_cons, List.nodup_cons]
        refine ⟨?_, inv.live_nodup⟩
        intro hmem
        rcases List.mem_map.mp hmem with ⟨hd, hmem2, hidx⟩
        exact inv.live_free hd hmem2 (hidx ▸ hposfree)
      · intro hd hmem
        rcases List.mem_cons.mp hmem with rfl | hmem2
        · show pos ∉ f :: ys2
          have hnd := inv.free_nodup
          rw [hfree, List.nodup_append] at hnd
          intro hmem3
          exact hnd.2.2 hmem3 (by simp)
        · show hd.index ∉ f :: ys2
          intro hmem3
          exact inv.live_free hd hmem2 (hfree ▸ List.mem_append_left _ hmem3)

theorem inv_finalize {c : Config} (inv : Inv c) {i : Nat} {d : Config}
    (h : stepEvent c (.finalize i) = some d) : Inv d := by
  unfold stepEvent at h
  dsimp only at h
  by_cases hlt : i < c.live.length
  case neg =>
    rw [dif_neg hlt] at h
    simp at h
  case pos =>
    rw [dif_pos hlt] at h
    simp only [Option.some_inj] at h
    subst h
    have hmem0 : c.live.get ⟨i, hlt⟩ ∈ c.live := by
      rw [List.get_eq_getElem]
      exact List.getElem_mem hlt
    have hb0 := inv.live_bounds _ hmem0
    have hnin0 := inv.live_free _ hmem0
    obtain ⟨fs, hfl⟩ := List.head?_eq_some_iff.mp inv.frontier
    have hlenS : (arraySetindex c.st.storage (.int64 0)
        (c.live.get ⟨i, hlt⟩).index).length = c.st.storage.length :=
      arraySetindex_length _ _ _
    have hne : ∀ hd ∈ c.live.eraseIdx i, hd.index ≠ (c.live.get ⟨i, hlt⟩).index := by
      intro hd hmem
      have h1 : hd.index ∈ (c.live.map JuliaHandle.index).eraseIdx i := by
        rw [← eraseIdx_map]
        exact List.mem_map_of_mem _ hmem
      have h2 := nodup_eraseIdx_ne (c.live.map JuliaHandle.index) i inv.live_nodup
        (by simpa using hlt) _ h1
      have h3 : (c.live.map JuliaHandle.index).get ⟨i, by simpa using hlt⟩
          = (c.live.get ⟨i, hlt⟩).index := by
        rw [List.get_eq_getElem, List.get_eq_getElem, List.getElem_map]
      rw [h3] at h2
      exact h2
    constructor
    all_goals dsimp only [JuliaObjFreeFunc]
    · show (c.st.freeList ++ [(c.live.get ⟨i, hlt⟩).index]).head? = _
      rw [hlenS, hfl, List.cons_append, List.head?_cons]
    · intro j hj
      rw [hlenS]
      have hj2 : j ∈ c.st.freeList.tail ++ [(c.live.get ⟨i, hlt⟩).index] := by
        have hj3 : j ∈ (c.st.freeList ++ [(c.live.get ⟨i, hlt⟩).index]).tail := hj
        rw [hfl] at hj3 ⊢
        simpa using hj3
      rcases List.mem_append.mp hj2 with hj3 | hj3
      · exact inv.free_tail_bounds j hj3
      · have : j = (c.live.get ⟨i, hlt⟩).index := by simpa using hj3
        rw [this]
        exact hb0
    · show (c.st.freeList ++ [(c.live.get ⟨i, hlt⟩).index]).Nodup
      refine List.nodup_append.mpr ⟨inv.free_nodup, by simp, ?_⟩
      intro a ha hb
      rw [show a = (c.live.get ⟨i, hlt⟩).index by simpa using hb] at ha
      exact hnin0 ha
    · intro hd hmem
      rw [hlenS]
      exact inv.live_bounds hd (List.mem_of_mem_eraseIdx hmem)
    · intro hd hmem
      have hmem2 := List.mem_of_mem_eraseIdx hmem
      have hb := inv.live_bounds hd hmem2
      rw [storageAt_set_ne (.int64 0) _ c.st.freeList hb0.1 hb.1 (hne hd hmem)]
      exact inv.live_val hd hmem2
    · show ((c.live.eraseIdx i).map JuliaHandle.index).Nodup
      rw [eraseIdx_map]
      exact List.Sublist.nodup (List.eraseIdx_sublist _ _) inv.live_nodup
    · intro hd hmem
      show hd.index ∉ c.st.freeList ++ [(c.live.get ⟨i, hlt⟩).index]
      intro hmem3
      rcases List.mem_append.mp hmem3 with h4 | h4
      · exact inv.live_free hd (List.mem_of_mem_eraseIdx hmem) h4
      · exact hne hd hmem (by simpa using h4)

theorem inv_step {c : Config} (inv : Inv c) {e : HandleEvent} {d : Config}
    (h : stepEvent c e = some d) : Inv d := by
  cases e with
  | create x => exact inv_create inv h
  | finalize i => exact inv_finalize inv h

theorem inv_run : ∀ (evs : List HandleEvent) {c d : Config}, Inv c →
    runEvents evs c = some d → Inv d
  | [], c, d, inv, h => by
    simp only [runEvents, Option.some_inj] at h
    exact h ▸ inv
  | e :: es, c, d, inv, h => by
    unfold runEvents at h
    rcases hs : stepEvent c e with _ | c1
    · rw [hs] at h; simp at h
    · rw [hs] at h
      exact inv_run es (inv_step inv hs) h

/-- C4: along every crash-free event sequence from the initialized
system, every live (unfinalized) handle's storage cell holds exactly
its raw Julia value; moreover a handle creation from any reachable
state pushes one new live handle whose slot holds the given raw
value. -/
theorem live_handle_anchored (evs : List HandleEvent) (c : Config)
    (hrun : runEvents evs initConfig = some c) :
    (∀ hd ∈ c.live, storageAt c.st hd.index = some hd.value) ∧
    (∀ (x : JlValue) (d : Config), stepEvent c (.create x) = some d →
      ∃ hd, d.live = hd :: c.live ∧ hd.value = x ∧ storageAt d.st hd.index = some x) := by
  have inv := inv_run evs inv_init hrun
  refine ⟨inv.live_val, ?_⟩
  intro x d hstep
  have invd := inv_step inv hstep
  unfold stepEvent at hstep
  dsimp only at hstep
  rcases hN : NewJuliaObj x c.st with _ | p
  · rw [hN] at hstep; simp at hstep
  · rw [hN] at hstep
    dsimp only at hstep
    simp only [Option.some_inj] at hstep
    have hval := NewJuliaObj_value hN
    refine ⟨p.1, by rw [← hstep], hval, ?_⟩
    have hmem : p.1 ∈ d.live := by
      rw [← hstep]
      exact List.mem_cons_self _ _
    have := invd.live_val p.1 hmem
    rw [hval] at this
    exact this

/-- Witness for C4: create two handles, finalize the older one, create
a third (which reuses its slot); both surviving handles stay
anchored. -/
theorem live_handle_anchored_witness :
    runEvents [.create (.int64 7), .create (.string "a"), .finalize 1, .create (.bool true)]
      initConfig
      = some ⟨⟨[.bool true, .string "a"], [3]⟩, [⟨.bool true, 1⟩, ⟨.string "a", 2⟩]⟩ ∧
    ∀ hd ∈ (⟨⟨[.bool true, .string "a"], [3]⟩,
        [⟨.bool true, 1⟩, ⟨.string "a", 2⟩]⟩ : Config).live,
      storageAt (⟨⟨[.bool true, .string "a"], [3]⟩,
        [⟨.bool true, 1⟩, ⟨.string "a", 2⟩]⟩ : Config).st hd.index = some hd.value :=
  ⟨by decide,
   (live_handle_anchored [.create (.int64 7), .create (.string "a"), .finalize 1,
     .create (.bool true)] _ (by decide)).1⟩

end JuliaInterface
